import Mathlib

/-!
Verification of the todo.txt record grammar and reconciliation logic of
gitlab-todotxt-sync (src/todo.rs, src/main.rs), as a shallow embedding.

Strings are modelled as `List Char`.  Rust's Unicode-aware character
classes (`char::is_whitespace`, regex `\s`, `\w`) are modelled on their
ASCII cores (space, tab, CR, LF; alphanumerics and underscore); every
concrete input appearing in a theorem below is ASCII, where the two agree.
Machine integers (`u8`, `u16`, `usize`) are modelled as `Nat` with the
explicit bounds 2^8, 2^16, 2^64 enforced where the Rust code enforces
them (at `parse()`).
-/

namespace GTSync

/-- Fallible computation result: `ok`, a format error carrying a message,
or a crash (a Rust panic, e.g. `unwrap()` on `None`). -/
inductive PResult (α : Type) where
  | ok (a : α)
  | err (msg : List Char)
  | crash
deriving DecidableEq

def PResult.isOk {α : Type} : PResult α → Bool
  | .ok _ => true
  | _ => false

/-- Convenience: characters of a string literal. -/
def cs (s : String) : List Char := s.data

/-- Model of Rust `char::is_whitespace` / regex `\s` (ASCII core). -/
def isWsp (c : Char) : Bool := c == ' ' || c == '\t' || c == '\n' || c == '\r'

/-- Model of regex `\w` (ASCII core: alphanumeric or underscore). -/
def wordChar (c : Char) : Bool := c.isAlphanum || c == '_'

/-- `s.split_once(p)`: split at the first character satisfying `p`,
dropping that character; `none` when no character satisfies `p`. -/
def splitAtFirst (p : Char → Bool) : List Char → Option (List Char × List Char)
  | [] => none
  | c :: rest =>
    if p c then some ([], rest)
    else (splitAtFirst p rest).map (fun ab => (c :: ab.1, ab.2))

/-- Numeric value of an ASCII digit character. -/
def digitVal (c : Char) : Nat := c.toNat - 48

/-- Value of a digit string, most significant first. -/
def digitsVal (l : List Char) : Nat := l.foldl (fun a c => 10 * a + digitVal c) 0

/-- Model of Rust `str::parse` for an unsigned integer type with exclusive
upper bound `bound`: an optional leading `+`, then one or more ASCII
digits, value below the bound (overflow is an error). -/
def parseBounded (bound : Nat) (s : List Char) : Option Nat :=
  let t := if s.head? = some '+' then s.tail else s
  if t ≠ [] ∧ t.all Char.isDigit then
    if digitsVal t < bound then some (digitsVal t) else none
  else none

/-- Decimal digits of `n`, structurally recursive on a fuel argument that
bounds the number of digits (`n < 10 ^ fuel`). -/
def toDecFuel : Nat → Nat → List Char
  | 0, _ => []
  | f + 1, n =>
    if n < 10 then [Char.ofNat (48 + n)]
    else toDecFuel f (n / 10) ++ [Char.ofNat (48 + n % 10)]

/-- Decimal rendering of a natural number (no leading zeros; `"0"` for 0),
as produced by Rust's integer `Display`. -/
def toDec (n : Nat) : List Char := toDecFuel (n + 1) n

/-- Zero padding to width `w`, as in Rust's `{:0w}` format. -/
def padz (w : Nat) (l : List Char) : List Char := List.replicate (w - l.length) '0' ++ l

/-- The `Date` struct of src/todo.rs.  Fields are `u16`/`u8` in Rust;
modelled as `Nat`, with `Date.wf` recording the machine bounds. -/
structure Date where
  year : Nat
  month : Nat
  day : Nat
deriving DecidableEq

def Date.wf (d : Date) : Prop := d.year < 65536 ∧ d.month < 256 ∧ d.day < 256

/-- `impl FromStr for Date`: split at the first `-` into year and rest,
split the rest at its first `-` into month and day, and parse the three
components as `u16`, `u8`, `u8`. -/
def Date.from_str (s : List Char) : PResult Date :=
  match splitAtFirst (· == '-') s with
  | some (y, rest) =>
    match splitAtFirst (· == '-') rest with
    | some (m, d) =>
      match parseBounded 65536 y with
      | some yv =>
        match parseBounded 256 m with
        | some mv =>
          match parseBounded 256 d with
          | some dv => .ok ⟨yv, mv, dv⟩
          | none => .err (cs "ParseIntError")
        | none => .err (cs "ParseIntError")
      | none => .err (cs "ParseIntError")
    | none => .err (cs "Invalid date format")
  | none => .err (cs "Invalid date format")

/-- `impl Display for Date`: `{:04}-{:02}-{:02}`. -/
def Date.serialize (d : Date) : List Char :=
  padz 4 (toDec d.year) ++ '-' :: (padz 2 (toDec d.month) ++ '-' :: padz 2 (toDec d.day))

/-- The `DescriptionPart` enum of src/todo.rs (borrowed `&str` fields
modelled as owned character lists). -/
inductive DescriptionPart where
  | project (name : List Char)
  | context (name : List Char)
  | data (key : List Char) (value : List Char)
deriving DecidableEq

/-- Does character `i` of `l` satisfy `p`?  Out of range is `false`. -/
def charAtIs (l : List Char) (i : Nat) (p : Char → Bool) : Bool :=
  match l.get? i with
  | some c => p c
  | none => false

/-- `DescriptionPart::parse`: leading `@` gives a context, leading `+` a
project, otherwise split at the first `:` into key and value; anything
else is an error (modelled as `none`). -/
def DescriptionPart.parse (s : List Char) : Option DescriptionPart :=
  if charAtIs s 0 (· == '@') then some (.context (s.drop 1))
  else if charAtIs s 0 (· == '+') then some (.project (s.drop 1))
  else
    match splitAtFirst (· == ':') s with
    | some kv => some (.data kv.1 kv.2)
    | none => none

/-!
## The tag regex

`Todo::part_reg` is `(^|\s)(?<tag>(?<head>@|\+|(?<key>\w+):)(?<body>\S)+)\b`,
used with leftmost-first (Perl-like) match semantics, both for
`captures_iter` (in `find_meta`) and `replace_all` (in
`escape_description`).

We embed its behaviour on a whole string by decomposing the string into
maximal runs of non-whitespace characters ("runs"), justified as follows.

* The `(^|\s)` group forces the `head` sub-match to begin either at
  position 0 or directly after a whitespace character; since `head` and
  `body` match only non-whitespace characters, `head` can succeed only at
  the first character of a run.  Hence every match lies inside a single
  run, prefixed (in the full match span) by the preceding whitespace
  character when there is one.
* At a run start, `head` is deterministic: `@` or `+` when the run starts
  with that character (length 1), otherwise the maximal `\w` prefix
  followed by a literal `:` (no shorter `\w+` prefix can be followed by
  `:`, because the next character of a shorter prefix is a word
  character).  If no alternative fits, there is no match anywhere in the
  run, since no later position of the run can satisfy `(^|\s)`.
* `(?<body>\S)+\b` is greedy with backtracking: the match ends at the
  largest position `e` strictly after the head and at most the run length
  such that a word boundary holds at `e` (`run[e-1]` and the character
  after it — whitespace or end of string beyond the run — differ in
  `\w`-ness).  If no such `e` exists the whole attempt fails and, as
  above, the run contains no match.
* Matches in distinct runs are disjoint, so `replace_all` rewrites each
  matching run independently and `captures_iter` yields the per-run tags
  in order.
-/

/-- Is the character at index `i` (of a run) a word character?  Out of
range counts as non-word: inside a run decomposition the characters
beyond a run are whitespace or absent. -/
def wordAt (run : List Char) (i : Nat) : Bool :=
  match run.get? i with
  | some c => wordChar c
  | none => false

/-- A regex word boundary between index `e - 1` and index `e` of a run. -/
def isBoundary (run : List Char) (e : Nat) : Bool := wordAt run (e - 1) != wordAt run e

/-- Length of the `head` group when the tag pattern is anchored at the
start of a run: `@` or `+` (length 1), or the maximal `\w+` prefix plus
the `:` after it. -/
def headLen (run : List Char) : Option Nat :=
  match run with
  | [] => none
  | c :: rest =>
    if c = '@' ∨ c = '+' then some 1
    else
      let k := ((c :: rest).takeWhile wordChar).length
      if k ≠ 0 ∧ (c :: rest).get? k = some ':' then some (k + 1) else none

/-- End position of the greedy `(?<body>\S)+\b`: the largest `e` with
`h < e ≤ run.length` and a word boundary at `e`. -/
def tagEnd (run : List Char) (h : Nat) : Option Nat :=
  (List.range (run.length + 1)).reverse.find? (fun e => h < e && isBoundary run e)

/-- Head length and match end of the tag pattern anchored at a run start,
`none` when the run contains no match. -/
def runMatch (run : List Char) : Option (Nat × Nat) :=
  match headLen run with
  | none => none
  | some h =>
    match tagEnd run h with
    | none => none
    | some e => some (h, e)

def notWsp (c : Char) : Bool := !isWsp c

/-- Fuelled walk for `find_meta` (structural on the fuel, which bounds
the string length).  In each maximal non-whitespace run, report the tag
match, if any. -/
def findMetaFuel : Nat → List Char → List (Option DescriptionPart)
  | _, [] => []
  | 0, _ :: _ => []
  | f + 1, c :: rest =>
    if isWsp c then findMetaFuel f rest
    else
      let run := (c :: rest).takeWhile notWsp
      let tail := (c :: rest).dropWhile notWsp
      (match runMatch run with
       | some he => [DescriptionPart.parse (run.take he.2)]
       | none => []) ++ findMetaFuel f tail

/-- All tags of a description, in order (the sequence produced by
`Todo::find_meta`).  An element is the result of `DescriptionPart::parse`
on the matched `tag` group (`none` would be the `expect` panic in
`find_meta`). -/
def findMetaGo (l : List Char) : List (Option DescriptionPart) := findMetaFuel l.length l

/-- Rewrite of one run by `replace_all`'s closure: when the run matches,
insert a backslash at `pos = head.end() - 1`, i.e. immediately *before*
the final character of the head (`@`, `+`, or the `:` after the key). -/
def escRun (run : List Char) : List Char :=
  match runMatch run with
  | some he => run.take (he.1 - 1) ++ '\\' :: run.drop (he.1 - 1)
  | none => run

/-- Fuelled walk for `escape_description` (structural on the fuel, which
bounds the string length): whitespace is kept, each maximal
non-whitespace run is rewritten by `escRun`. -/
def escapeFuel : Nat → List Char → List Char
  | _, [] => []
  | 0, l => l
  | f + 1, c :: rest =>
    if isWsp c then c :: escapeFuel f rest
    else escRun ((c :: rest).takeWhile notWsp) ++ escapeFuel f ((c :: rest).dropWhile notWsp)

/-- `Todo::escape_description` (the `replace_all` over `part_reg`). -/
def escapeGo (l : List Char) : List Char := escapeFuel l.length l

/-- The `Todo` struct of src/todo.rs. -/
structure Todo where
  done : Bool
  priority : Option Char
  created : Option Date
  completed : Option Date
  description : List Char
deriving DecidableEq

/-- `Todo::new`: reject a completion date without a creation date,
otherwise build the record from the given fields. -/
def Todo.new (done : Bool) (priority : Option Char) (created : Option Date)
    (completed : Option Date) (description : List Char) : PResult Todo :=
  if completed.isSome ∧ created.isNone then
    .err (cs "Can't have a Todo with a completion date and not a creation date")
  else .ok ⟨done, priority, created, completed, description⟩

/-- `Todo::escape_description`. -/
def Todo.escape_description (desc : List Char) : List Char := escapeGo desc

/-- `Todo::find_meta` applied to a description: the tag sequence.  A
`none` element marks the `expect` panic on an unparsable tag (shown
below never to occur). -/
def Todo.find_meta (t : Todo) : List (Option DescriptionPart) := findMetaGo t.description

/-- `Todo::get_data`: value of the first `Data` tag whose key matches. -/
def Todo.get_data (t : Todo) (key : List Char) : Option (List Char) :=
  ((findMetaGo t.description).filterMap id).filterMap
    (fun p => match p with
      | .data k v => if k = key then some v else none
      | _ => none) |>.head?

/-!
## The priority regex of `impl FromStr for Todo`

`PRI_REG` is `r"^\(?<pri>([A-Z])\)\s+"`.  Note that the opening
parenthesis is escaped, so this is: an optional literal `(`, the five
literal characters `<pri>`, one captured uppercase letter (the unnamed
group 1), a literal `)`, and one or more whitespace characters.  The
pattern contains no group named `pri`, so whenever it matches,
`pri.name("pri").unwrap()` panics.
-/

/-- `PRI_REG` anchored after the optional `(`: literal `<pri>`, an
uppercase letter, `)`, then at least one whitespace character. -/
def priCore (l : List Char) : Bool :=
  charAtIs l 0 (· == '<') && charAtIs l 1 (· == 'p') && charAtIs l 2 (· == 'r') &&
  charAtIs l 3 (· == 'i') && charAtIs l 4 (· == '>') && charAtIs l 5 Char.isUpper &&
  charAtIs l 6 (· == ')') && charAtIs l 7 isWsp

/-- Does `PRI_REG` match at the start of `s` (with or without the
optional leading `(`)? -/
def priMatch (s : List Char) : Bool :=
  (charAtIs s 0 (· == '(') && priCore (s.drop 1)) || priCore s

/-- Does the line start with the literal prefix `"x "`? -/
def startsWithX (s : List Char) : Bool :=
  charAtIs s 0 (· == 'x') && charAtIs s 1 (· == ' ')

/-- `impl FromStr for Todo`: consume the `x ` prefix; if `PRI_REG`
matches, the lookup of the non-existent capture group `pri` panics
(`crash`); otherwise try to consume one or two leading `Date` tokens
(two only on a done line, else a format error), and keep the trimmed
remainder as the description. -/
def Todo.from_str (s0 : List Char) : PResult Todo :=
  let done := startsWithX s0
  let s1 := if done then s0.drop 2 else s0
  if priMatch s1 then .crash
  else
    match splitAtFirst isWsp s1 with
    | none => Todo.new done none none none (s1.dropWhile isWsp)
    | some (part, rest) =>
      match Date.from_str part with
      | .ok date =>
        match (splitAtFirst isWsp rest).bind
            (fun pr =>
              match Date.from_str pr.1 with
              | .ok d2 => some (d2, pr.2)
              | _ => none) with
        | some (creat, rest2) =>
          if done then Todo.new done none (some creat) (some date) (rest2.dropWhile isWsp)
          else .err (cs "Completion date present on uncompleted todo")
        | none => Todo.new done none (some date) none (rest.dropWhile isWsp)
      | _ => Todo.new done none none none (s1.dropWhile isWsp)

/-- `impl Display for Todo`: `x ` if done, `(P) ` if a priority is set,
completion date, creation date (each followed by a space), then the
description verbatim. -/
def Todo.serialize (t : Todo) : List Char :=
  (if t.done then 'x' :: ' ' :: [] else []) ++
  (match t.priority with
   | some c => '(' :: c :: ')' :: ' ' :: []
   | none => []) ++
  (match t.completed with
   | some d => Date.serialize d ++ [' ']
   | none => []) ++
  (match t.created with
   | some d => Date.serialize d ++ [' ']
   | none => []) ++
  t.description

/-!
## The reconciler (`update_todos` of src/main.rs)

The incoming `HashMap<usize, Todo>` is modelled as an association list of
key/record pairs (a `HashMap` never holds two equal keys; removal drops
every pair with the key, which agrees with the map on such lists).
Iteration order of `into_values` follows the list.
-/

/-- `HashMap::get`-style lookup. -/
def lookupKey (id : Nat) (m : List (Nat × Todo)) : Option Todo :=
  (m.find? (fun kv => kv.1 == id)).map Prod.snd

/-- `HashMap::remove`: drop the entry with the key. -/
def eraseKey (id : Nat) (m : List (Nat × Todo)) : List (Nat × Todo) :=
  m.filter (fun kv => kv.1 ≠ id)

/-- `get_id` of `update_todos`: the `id` data tag parsed as `usize`;
a missing tag or a failed parse is a logged warning and `none`. -/
def get_id (t : Todo) : Option Nat :=
  (t.get_data (cs "id")).bind (parseBounded (2 ^ 64))

/-- The `retain_mut` pass of `update_todos`: each local record with a
parsable id is replaced by the incoming record of the same id (counted as
updated when different) or dropped (counted as removed) when absent;
records without a parsable id are kept untouched.  Returns the kept
records, the remaining incoming map, and the updated/removed counts. -/
def updateLocals : List Todo → List (Nat × Todo) → List Todo × List (Nat × Todo) × Nat × Nat
  | [], m => ([], m, 0, 0)
  | t :: rest, m =>
    match get_id t with
    | none =>
      let r := updateLocals rest m
      (t :: r.1, r.2)
    | some id =>
      match lookupKey id m with
      | some td =>
        let r := updateLocals rest (eraseKey id m)
        if t = td then (t :: r.1, r.2) else (td :: r.1, r.2.1, r.2.2.1 + 1, r.2.2.2)
      | none =>
        let r := updateLocals rest m
        (r.1, r.2.1, r.2.2.1, r.2.2.2 + 1)

/-- `update_todos`: the retain pass over the local list, then appending
the remaining incoming records — all of them under the add policy
(`add_done`), only the not-done ones otherwise.  Returns the new list and
the `(new, updated, removed)` counts. -/
def update_todos (existing : List Todo) (todos : List (Nat × Todo)) (add_done : Bool) :
    List Todo × Nat × Nat × Nat :=
  let r := updateLocals existing todos
  let vals := r.2.1.map Prod.snd
  (r.1 ++ (if add_done then vals else vals.filter (fun t => !t.done)),
   r.2.1.length, r.2.2.1, r.2.2.2)

/-!
## General lemmas: splitting, digits, date round trip
-/

theorem splitAtFirst_append (p : Char → Bool) (a : List Char) (c : Char) (b : List Char)
    (ha : ∀ x ∈ a, p x = false) (hc : p c = true) :
    splitAtFirst p (a ++ c :: b) = some (a, b) := by
  induction a with
  | nil => simp [splitAtFirst, hc]
  | cons x xs ih =>
    have hx : p x = false := ha x (by simp)
    have ih' := ih (fun y hy => ha y (by simp [hy]))
    simp only [List.cons_append, splitAtFirst, hx, Bool.false_eq_true, if_false,
      List.append_eq]
    rw [ih']
    rfl

theorem splitAtFirst_some {p : Char → Bool} {l a b : List Char}
    (h : splitAtFirst p l = some (a, b)) :
    (∀ x ∈ a, p x = false) ∧ ∃ c, p c = true ∧ l = a ++ c :: b := by
  induction l generalizing a with
  | nil => simp [splitAtFirst] at h
  | cons x xs ih =>
    by_cases hx : p x = true
    · simp only [splitAtFirst, hx, if_true, Option.some_inj, Prod.mk.injEq] at h
      obtain ⟨rfl, rfl⟩ := h
      exact ⟨by simp, x, hx, by simp⟩
    · have hx' : p x = false := by simpa using hx
      simp only [splitAtFirst, hx', Bool.false_eq_true, if_false, Option.map_eq_some'] at h
      obtain ⟨⟨a', b'⟩, hsp, heq⟩ := h
      obtain ⟨rfl, rfl⟩ : x :: a' = a ∧ b' = b :=
        ⟨congrArg Prod.fst heq, congrArg Prod.snd heq⟩
      obtain ⟨hall, c, hc, rfl⟩ := ih hsp
      refine ⟨?_, c, hc, by simp⟩
      intro y hy
      rcases List.mem_cons.1 hy with rfl | hy'
      · exact hx'
      · exact hall y hy'

theorem splitAtFirst_none {p : Char → Bool} {l : List Char} :
    splitAtFirst p l = none ↔ ∀ x ∈ l, p x = false := by
  induction l with
  | nil => simp [splitAtFirst]
  | cons x xs ih =>
    by_cases hx : p x = true
    · simp [splitAtFirst, hx]
    · have hx' : p x = false := by simpa using hx
      simp [splitAtFirst, hx', ih]

/-- Every character of `toDecFuel` is an ASCII digit (explicitly
`48 + k`, `k < 10`). -/
theorem toDec_chars : ∀ f n, ∀ c ∈ toDecFuel f n, ∃ k, k < 10 ∧ c = Char.ofNat (48 + k) := by
  intro f
  induction f with
  | zero => intro n c hc; simp [toDecFuel] at hc
  | succ f ih =>
    intro n c hc
    by_cases h : n < 10
    · simp only [toDecFuel, h, if_true, List.mem_singleton] at hc
      exact ⟨n, h, hc⟩
    · simp only [toDecFuel, h, Bool.false_eq_true, if_false, List.mem_append,
        List.mem_singleton] at hc
      rcases hc with hc | rfl
      · exact ih _ c hc
      · exact ⟨n % 10, Nat.mod_lt _ (by omega), rfl⟩

theorem digitVal_ofNat {k : Nat} (hk : k < 10) :
    digitVal (Char.ofNat (48 + k)) = k ∧ (Char.ofNat (48 + k)).isDigit = true := by
  interval_cases k <;> exact ⟨by decide, by decide⟩

/-- Character-class facts about ASCII digits needed below. -/
theorem digit_char_facts {c : Char} (h : c.isDigit = true) :
    isWsp c = false ∧ c ≠ '-' ∧ c ≠ '+' ∧ c ≠ 'x' ∧ c ≠ '(' ∧ c ≠ '<' ∧ notWsp c = true := by
  have hv : 48 ≤ c.toNat ∧ c.toNat ≤ 57 := by
    simp only [Char.isDigit, Bool.and_eq_true, decide_eq_true_eq] at h
    exact ⟨h.1, h.2⟩
  have hnec : ∀ d : Char, c.toNat ≠ d.toNat → c ≠ d := fun d hd hcd => hd (by rw [hcd])
  have hbeq : ∀ d : Char, c.toNat ≠ d.toNat → (c == d) = false := fun d hd =>
    beq_eq_false_iff_ne.2 (hnec d hd)
  have t32 : (' ' : Char).toNat = 32 := rfl
  have t9 : ('\t' : Char).toNat = 9 := rfl
  have t10 : ('\n' : Char).toNat = 10 := rfl
  have t13 : ('\r' : Char).toNat = 13 := rfl
  have t45 : ('-' : Char).toNat = 45 := rfl
  have t43 : ('+' : Char).toNat = 43 := rfl
  have t120 : ('x' : Char).toNat = 120 := rfl
  have t40 : ('(' : Char).toNat = 40 := rfl
  have t60 : ('<' : Char).toNat = 60 := rfl
  have hwsp : isWsp c = false := by
    simp only [isWsp, Bool.or_eq_false_iff]
    exact ⟨⟨⟨hbeq ' ' (by omega), hbeq '\t' (by omega)⟩, hbeq '\n' (by omega)⟩,
      hbeq '\r' (by omega)⟩
  exact ⟨hwsp, hnec '-' (by omega), hnec '+' (by omega), hnec 'x' (by omega),
    hnec '(' (by omega), hnec '<' (by omega), by simp [notWsp, hwsp]⟩

theorem toDec_all_digit (n : Nat) : ∀ c ∈ toDec n, c.isDigit = true := by
  intro c hc
  obtain ⟨k, hk, rfl⟩ := toDec_chars _ _ c hc
  exact (digitVal_ofNat hk).2

theorem toDecFuel_ne_nil {f n : Nat} (h : 0 < f) : toDecFuel f n ≠ [] := by
  cases f with
  | zero => omega
  | succ f =>
    by_cases hn : n < 10 <;> simp [toDecFuel, hn]

theorem padz_all_digit {w : Nat} {l : List Char} (hl : ∀ c ∈ l, c.isDigit = true) :
    ∀ c ∈ padz w l, c.isDigit = true := by
  intro c hc
  rcases List.mem_append.1 hc with hz | hm
  · rw [List.eq_of_mem_replicate hz]; decide
  · exact hl c hm

theorem digitsVal_go : ∀ f n a, n < 10 ^ f →
    List.foldl (fun a c => 10 * a + digitVal c) a (toDecFuel f n) =
      a * 10 ^ (toDecFuel f n).length + n := by
  intro f
  induction f with
  | zero => intro n a h; interval_cases n; simp [toDecFuel]
  | succ f ih =>
    intro n a h
    by_cases hn : n < 10
    · simp only [toDecFuel, hn, if_true, List.foldl_cons, List.foldl_nil,
        List.length_singleton, pow_one, (digitVal_ofNat hn).1]
      ring
    · have hdiv : n / 10 < 10 ^ f := by
        rw [Nat.div_lt_iff_lt_mul (by omega)]
        calc n < 10 ^ (f + 1) := h
        _ = 10 ^ f * 10 := by ring
      simp only [toDecFuel, hn, Bool.false_eq_true, if_false, List.foldl_append,
        List.length_append, List.foldl_cons, List.foldl_nil, List.length_cons,
        List.length_nil, Nat.zero_add]
      rw [ih _ a hdiv, (digitVal_ofNat (Nat.mod_lt _ (by omega))).1]
      rw [pow_succ]
      have := Nat.div_add_mod n 10
      ring_nf
      omega

theorem digitsVal_toDec (n : Nat) : digitsVal (toDec n) = n := by
  have hlt : n < 10 ^ (n + 1) :=
    lt_of_lt_of_le (@Nat.lt_pow_self 10 (by omega) n)
      (Nat.pow_le_pow_right (by omega) (by omega))
  have := digitsVal_go (n + 1) n 0 hlt
  simpa [digitsVal, toDec] using this

theorem digitsVal_padz (w : Nat) (l : List Char) : digitsVal (padz w l) = digitsVal l := by
  unfold padz digitsVal
  generalize w - l.length = k
  induction k with
  | zero => simp
  | succ k ih => simpa [List.replicate_succ] using ih

theorem parseBounded_padz {bound w n : Nat} (h : n < bound) :
    parseBounded bound (padz w (toDec n)) = some n := by
  have hdig : ∀ c ∈ padz w (toDec n), c.isDigit = true := padz_all_digit (toDec_all_digit n)
  have hne : padz w (toDec n) ≠ [] := by
    intro habs
    exact toDecFuel_ne_nil (Nat.succ_pos n) (List.append_eq_nil.1 habs).2
  obtain ⟨c0, cs0, hl⟩ : ∃ c0 cs0, padz w (toDec n) = c0 :: cs0 := by
    cases hpz : padz w (toDec n) with
    | nil => exact absurd hpz hne
    | cons y ys => exact ⟨y, ys, rfl⟩
  have hc0 : c0.isDigit = true := hdig c0 (by rw [hl]; simp)
  have hhead : ¬ ((padz w (toDec n)).head? = some '+') := by
    rw [hl]
    simp only [List.head?_cons, Option.some_inj]
    exact fun habs => (digit_char_facts hc0).2.2.1 habs
  have hall : (padz w (toDec n)).all Char.isDigit = true :=
    List.all_eq_true.2 (fun c hc => hdig c hc)
  simp only [parseBounded, hhead, if_false, digitsVal_padz, digitsVal_toDec]
  rw [if_pos ⟨hne, hall⟩, if_pos h]

/-- Serialized dates contain only digits and dashes. -/
theorem date_serialize_chars {d : Date} (c : Char) (hc : c ∈ Date.serialize d) :
    c.isDigit = true ∨ c = '-' := by
  simp only [Date.serialize, List.mem_append, List.mem_cons] at hc
  rcases hc with h | rfl | h | rfl | h
  · exact Or.inl (padz_all_digit (toDec_all_digit _) c h)
  · exact Or.inr rfl
  · exact Or.inl (padz_all_digit (toDec_all_digit _) c h)
  · exact Or.inr rfl
  · exact Or.inl (padz_all_digit (toDec_all_digit _) c h)

theorem date_serialize_not_wsp {d : Date} : ∀ c ∈ Date.serialize d, isWsp c = false := by
  intro c hc
  rcases date_serialize_chars c hc with h | rfl
  · exact (digit_char_facts h).1
  · decide

/-- `Date` serialization followed by parsing is the identity on dates in
the `u16`/`u8` machine ranges. -/
theorem date_roundtrip {d : Date} (h : d.wf) : Date.from_str (Date.serialize d) = .ok d := by
  obtain ⟨hy, hm, hd⟩ := h
  have hdash : ∀ (w m : Nat), ∀ x ∈ padz w (toDec m), ((x == '-') = false) := by
    intro w m x hx
    rw [beq_eq_false_iff_ne]
    exact (digit_char_facts (padz_all_digit (toDec_all_digit m) x hx)).2.1
  have h2 := splitAtFirst_append (· == '-') (padz 4 (toDec d.year)) '-'
    (padz 2 (toDec d.month) ++ '-' :: padz 2 (toDec d.day)) (hdash 4 d.year) (by decide)
  have h3 := splitAtFirst_append (· == '-') (padz 2 (toDec d.month)) '-'
    (padz 2 (toDec d.day)) (hdash 2 d.month) (by decide)
  simp only [Date.serialize, Date.from_str, h2, h3, parseBounded_padz hy,
    parseBounded_padz hm, parseBounded_padz hd]

/-- A successfully parsed unsigned integer starts with `+` or a digit. -/
theorem parseBounded_first {bound : Nat} {a : List Char} {v : Nat}
    (h : parseBounded bound a = some v) :
    ∃ c0 r0, a = c0 :: r0 ∧ (c0.isDigit = true ∨ c0 = '+') := by
  unfold parseBounded at h
  by_cases hh : a.head? = some '+'
  · cases a with
    | nil => simp at hh
    | cons c0 r0 =>
      simp only [List.head?_cons, Option.some_inj] at hh
      exact ⟨c0, r0, rfl, Or.inr hh⟩
  · simp only [hh, if_false] at h
    by_cases hc : a ≠ [] ∧ a.all Char.isDigit = true
    · cases a with
      | nil => exact absurd rfl hc.1
      | cons c0 r0 =>
        exact ⟨c0, r0, rfl, Or.inl (List.all_eq_true.1 hc.2 c0 (by simp))⟩
    · rw [if_neg hc] at h
      exact absurd h (by simp)

/-- A string parsing as a `Date` starts with a digit, `+`, or `-`. -/
theorem date_ok_first_char {p : List Char} {d : Date} (h : Date.from_str p = .ok d) :
    ∃ c0 r0, p = c0 :: r0 ∧ (c0.isDigit = true ∨ c0 = '+' ∨ c0 = '-') := by
  unfold Date.from_str at h
  cases h1 : splitAtFirst (· == '-') p with
  | none => rw [h1] at h; exact absurd h (by simp)
  | some yr =>
    obtain ⟨a, rest⟩ := yr
    rw [h1] at h
    dsimp only at h
    cases h2 : splitAtFirst (· == '-') rest with
    | none => rw [h2] at h; exact absurd h (by simp)
    | some md =>
      obtain ⟨b, c⟩ := md
      rw [h2] at h
      dsimp only at h
      cases h3 : parseBounded 65536 a with
      | none => rw [h3] at h; exact absurd h (by simp)
      | some yv =>
        obtain ⟨_, cdash, hdash, hp⟩ := splitAtFirst_some h1
        have hdash' : cdash = '-' := by simpa using hdash
        subst hdash'
        cases a with
        | nil => exact ⟨'-', rest, hp, Or.inr (Or.inr rfl)⟩
        | cons c0 r0 =>
          obtain ⟨c0', r0', heq, hc0⟩ := parseBounded_first h3
          simp only [List.cons.injEq] at heq
          obtain ⟨rfl, rfl⟩ := heq
          refine ⟨c0, r0 ++ '-' :: rest, by simpa using hp, ?_⟩
          rcases hc0 with hd | rfl
          · exact Or.inl hd
          · exact Or.inr (Or.inl rfl)

/-- `PRI_REG` cannot match a string whose first character is neither `(`
nor `<`. -/
theorem priMatch_cons_false {c : Char} {r : List Char} (h1 : c ≠ '(') (h2 : c ≠ '<') :
    priMatch (c :: r) = false := by
  have b1 : (c == '(') = false := beq_eq_false_iff_ne.2 h1
  have b2 : (c == '<') = false := beq_eq_false_iff_ne.2 h2
  simp [priMatch, priCore, charAtIs, b1, b2]

/-- No `x ` prefix on a string whose first character is not `x`. -/
theorem startsWithX_cons_false {c : Char} {r : List Char} (h : c ≠ 'x') :
    startsWithX (c :: r) = false := by
  have b : (c == 'x') = false := beq_eq_false_iff_ne.2 h
  simp [startsWithX, charAtIs, b]

/-!
## Claims
-/

/-- C9: `Todo::new` returns an error exactly when the completed date is
set and the created date is unset; in every other combination it returns
the record with the given fields. -/
theorem claim9_new_rejects_completed_without_created (done : Bool) (priority : Option Char)
    (created completed : Option Date) (description : List Char) :
    (Todo.new done priority created completed description =
        .ok ⟨done, priority, created, completed, description⟩ ↔
      ¬(completed.isSome = true ∧ created = none)) ∧
    ((∃ msg, Todo.new done priority created completed description = .err msg) ↔
      (completed.isSome = true ∧ created = none)) := by
  by_cases h : completed.isSome = true ∧ created.isNone = true
  · have h' : completed.isSome = true ∧ created = none := ⟨h.1, Option.isNone_iff_eq_none.1 h.2⟩
    simp [Todo.new, h, h']
  · have h' : ¬(completed.isSome = true ∧ created = none) := by
      intro habs
      exact h ⟨habs.1, by simp [habs.2]⟩
    simp [Todo.new, h, h']

/-- C6 counterexample: a month of 13 and a day of 40 are outside the
ranges the claim requires parsing to reject, yet parsing succeeds. -/
theorem claim6_counterexample : Date.from_str (cs "2024-13-40") = .ok ⟨2024, 13, 40⟩ := by
  decide

/-- C6 (amended): parsing a token as a `Date` succeeds exactly when it
splits at its first two dashes into three components each parsing as an
unsigned integer (optional leading `+`, ASCII digits) with year below
2^16 and month and day below 2^8; no month/day range or calendar check
is made. -/
theorem claim6_amended_date_parse (s : List Char) (y m d : Nat) :
    Date.from_str s = .ok ⟨y, m, d⟩ ↔
      ∃ a b c, s = a ++ '-' :: (b ++ '-' :: c) ∧
        (∀ x ∈ a, x ≠ '-') ∧ (∀ x ∈ b, x ≠ '-') ∧
        parseBounded 65536 a = some y ∧ parseBounded 256 b = some m ∧
        parseBounded 256 c = some d := by
  constructor
  · intro h
    unfold Date.from_str at h
    cases h1 : splitAtFirst (· == '-') s with
    | none => rw [h1] at h; exact absurd h (by simp)
    | some yr =>
      obtain ⟨a, rest⟩ := yr
      rw [h1] at h
      dsimp only at h
      cases h2 : splitAtFirst (· == '-') rest with
      | none => rw [h2] at h; exact absurd h (by simp)
      | some md =>
        obtain ⟨b, c⟩ := md
        rw [h2] at h
        dsimp only at h
        cases h3 : parseBounded 65536 a with
        | none => rw [h3] at h; exact absurd h (by simp)
        | some yv =>
          rw [h3] at h
          dsimp only at h
          cases h4 : parseBounded 256 b with
          | none => rw [h4] at h; exact absurd h (by simp)
          | some mv =>
            rw [h4] at h
            dsimp only at h
            cases h5 : parseBounded 256 c with
            | none => rw [h5] at h; exact absurd h (by simp)
            | some dv =>
              rw [h5] at h
              dsimp only at h
              simp only [PResult.ok.injEq, Date.mk.injEq] at h
              obtain ⟨rfl, rfl, rfl⟩ := h
              obtain ⟨ha, c1, hc1, hs⟩ := splitAtFirst_some h1
              obtain ⟨hb, c2, hc2, hrest⟩ := splitAtFirst_some h2
              have hc1' : c1 = '-' := by simpa using hc1
              have hc2' : c2 = '-' := by simpa using hc2
              subst hc1' hc2' hrest
              exact ⟨a, b, c, hs, fun x hx => by simpa using ha x hx,
                fun x hx => by simpa using hb x hx, h3, h4, h5⟩
  · rintro ⟨a, b, c, rfl, ha, hb, hy, hm, hd⟩
    have ha' : ∀ x ∈ a, ((x == '-') = false) := fun x hx => beq_eq_false_iff_ne.2 (ha x hx)
    have hb' : ∀ x ∈ b, ((x == '-') = false) := fun x hx => beq_eq_false_iff_ne.2 (hb x hx)
    simp only [Date.from_str,
      splitAtFirst_append (· == '-') a '-' (b ++ '-' :: c) ha' (by decide),
      splitAtFirst_append (· == '-') b '-' c hb' (by decide), hy, hm, hd]

/-- C3: on the line `(A) task`, the priority regex
`^\(?<pri>([A-Z])\)\s+` (whose `\(` makes `<pri>` literal text) does not
match, so the parser leaves the priority unset and keeps `(A) ` in the
description, contradicting the claimed capture of `A`. -/
theorem claim3_priority_never_captured :
    Todo.from_str (cs "(A) task") = .ok ⟨false, none, none, none, cs "(A) task"⟩ := by
  decide

/-- C10: on a line matching the literal priority pattern, the lookup of
the non-existent capture group `pri` panics, so parsing is not total. -/
theorem claim10_parse_panics :
    Todo.from_str (cs "(<pri>A) call mom") = .crash := by
  decide

/-- C8 counterexample: an uncompleted line whose two whitespace-delimited
tokens both parse as dates, where the second token ends the line; the
parser succeeds (second token left in the description) instead of
failing as the claim requires. -/
theorem claim8_counterexample :
    Todo.from_str (cs "2024-01-01 2024-01-02") =
      .ok ⟨false, none, some ⟨2024, 1, 1⟩, none, cs "2024-01-02"⟩ := by
  decide

/-- C8 (amended): on a line not starting with `x ` whose first
whitespace-delimited token parses as a `Date` and whose remainder again
splits at whitespace with the part before it parsing as a `Date` (i.e.
the second date token is followed by further whitespace), parsing fails
with the completion-date-on-uncompleted-item error. -/
theorem claim8_amended_two_dates_error (s p1 r1 p2 r2 : List Char) (d1 d2 : Date)
    (hx : startsWithX s = false)
    (h2 : splitAtFirst isWsp s = some (p1, r1))
    (h3 : Date.from_str p1 = .ok d1)
    (h4 : splitAtFirst isWsp r1 = some (p2, r2))
    (h5 : Date.from_str p2 = .ok d2) :
    Todo.from_str s = .err (cs "Completion date present on uncompleted todo") := by
  have hpm : priMatch s = false := by
    obtain ⟨c0, r0, hp1, hc0⟩ := date_ok_first_char h3
    obtain ⟨_, w, hw, hs⟩ := splitAtFirst_some h2
    subst hp1
    rw [hs]
    have hne : c0 ≠ '(' ∧ c0 ≠ '<' := by
      rcases hc0 with hd | rfl | rfl
      · exact ⟨(digit_char_facts hd).2.2.2.2.1, (digit_char_facts hd).2.2.2.2.2.1⟩
      · exact ⟨by decide, by decide⟩
      · exact ⟨by decide, by decide⟩
    simpa using priMatch_cons_false hne.1 hne.2
  simp only [Todo.from_str, hx, Bool.false_eq_true, if_false, hpm, h2, h3, h4,
    Option.some_bind, h5]

/-- C8 witness. -/
theorem claim8_amended_witness :
    Todo.from_str (cs "2024-01-01 2024-01-02 tidy desk") =
      .err (cs "Completion date present on uncompleted todo") :=
  claim8_amended_two_dates_error (cs "2024-01-01 2024-01-02 tidy desk") (cs "2024-01-01")
    (cs "2024-01-02 tidy desk") (cs "2024-01-02") (cs "tidy desk") ⟨2024, 1, 1⟩ ⟨2024, 1, 2⟩
    (by decide) (by decide) (by decide) (by decide) (by decide)

/-!
## C1: the serialize/parse round trip
-/

/-- The first whitespace-delimited token of the description does not
parse as a `Date` (trivially true when there is no whitespace). -/
def firstTokNotDate (desc : List Char) : Bool :=
  match splitAtFirst isWsp desc with
  | some pr => !(Date.from_str pr.1).isOk
  | none => true

/-- A serialized date starts with an ASCII digit. -/
theorem date_serialize_head (d : Date) :
    ∃ c0 r0, Date.serialize d = c0 :: r0 ∧ c0.isDigit = true := by
  have hne : padz 4 (toDec d.year) ≠ [] := fun habs =>
    toDecFuel_ne_nil (Nat.succ_pos d.year) (List.append_eq_nil.1 habs).2
  obtain ⟨c0, r0, hl⟩ := List.exists_cons_of_ne_nil hne
  refine ⟨c0, r0 ++ '-' :: (padz 2 (toDec d.month) ++ '-' :: padz 2 (toDec d.day)), ?_, ?_⟩
  · simp only [Date.serialize, hl, List.cons_append]
  · exact padz_all_digit (toDec_all_digit _) c0 (by rw [hl]; simp)

/-- C1 counterexample: the record with `done = false` and description
`x a` is constructible under the invariants (no completion date), but its
serialization is the line `x a`, which parses back as a *done* record
with description `a` — not the original record. -/
theorem claim1_counterexample :
    Todo.serialize ⟨false, none, none, none, cs "x a"⟩ = cs "x a" ∧
    Todo.from_str (cs "x a") = .ok ⟨true, none, none, none, cs "a"⟩ := by
  decide

/-- `priMatch` is false on anything that starts with a serialized date. -/
theorem priMatch_date_head (d : Date) (rest : List Char) :
    priMatch (Date.serialize d ++ rest) = false := by
  obtain ⟨c0, r0, hl, hdig⟩ := date_serialize_head d
  rw [hl, List.cons_append]
  exact priMatch_cons_false (digit_char_facts hdig).2.2.2.2.1
    (digit_char_facts hdig).2.2.2.2.2.1

/-- `startsWithX` is false on anything that starts with a serialized
date. -/
theorem startsWithX_date_head (d : Date) (rest : List Char) :
    startsWithX (Date.serialize d ++ rest) = false := by
  obtain ⟨c0, r0, hl, hdig⟩ := date_serialize_head d
  rw [hl, List.cons_append]
  exact startsWithX_cons_false (digit_char_facts hdig).2.2.2.1

/-- Splitting off a serialized date before a space. -/
theorem splitAtFirst_date (d : Date) (rest : List Char) :
    splitAtFirst isWsp (Date.serialize d ++ ' ' :: rest) = some (Date.serialize d, rest) :=
  splitAtFirst_append isWsp (Date.serialize d) ' ' rest date_serialize_not_wsp (by decide)

/-- C1 (amended): the serialize/parse round trip holds for every record
whose dates are in machine range and that additionally satisfies: the
priority is unset (the broken priority regex never matches a serialized
priority), a completion date appears only on a done record, the
description has no leading whitespace, the description's first
whitespace-delimited token is not a date when no completion date is set,
and — when there are no dates at all — the description does not make the
line match the (literal) priority pattern and does not begin with `x `
on a not-done record. -/
theorem claim1_amended_roundtrip (t : Todo)
    (hpri : t.priority = none)
    (hcwf : ∀ d, t.created = some d → d.wf)
    (hqwf : ∀ d, t.completed = some d → d.wf)
    (hinv : t.completed.isSome = true → t.created.isSome = true ∧ t.done = true)
    (hlead : t.description.dropWhile isWsp = t.description)
    (htok : t.completed = none → firstTokNotDate t.description = true)
    (hnodate : t.created = none → priMatch t.description = false ∧
      (t.done = false → startsWithX t.description = false)) :
    Todo.from_str (Todo.serialize t) = .ok t := by
  obtain ⟨done, priority, created, completed, desc⟩ := t
  dsimp only at hpri hcwf hqwf hinv hlead htok hnodate
  subst hpri
  cases completed with
  | some c2 =>
    obtain ⟨hcs, hdone⟩ := hinv rfl
    cases created with
    | none => simp at hcs
    | some c1 =>
      subst hdone
      have hser : Todo.serialize ⟨true, none, some c1, some c2, desc⟩ =
          'x' :: ' ' :: (Date.serialize c2 ++ ' ' ::
            (Date.serialize c1 ++ ' ' :: desc)) := by
        simp [Todo.serialize]
      rw [hser]
      have hpm : priMatch (Date.serialize c2 ++ ' ' ::
          (Date.serialize c1 ++ ' ' :: desc)) = false := priMatch_date_head c2 _
      simp only [Todo.from_str, startsWithX, charAtIs, List.get?_cons_zero,
        List.get?_cons_succ, beq_self_eq_true, Bool.and_self, if_true,
        List.drop_succ_cons, List.drop_zero, hpm, Bool.false_eq_true, if_false,
        splitAtFirst_date, date_roundtrip (hqwf c2 rfl), date_roundtrip (hcwf c1 rfl),
        Option.some_bind, Todo.new, hlead]
      simp
  | none =>
    have htok' := htok rfl
    cases created with
    | some c1 =>
      have hrt1 := date_roundtrip (hcwf c1 rfl)
      have hpm : priMatch (Date.serialize c1 ++ ' ' :: desc) = false :=
        priMatch_date_head c1 _
      cases done with
      | true =>
        have hser : Todo.serialize ⟨true, none, some c1, none, desc⟩ =
            'x' :: ' ' :: (Date.serialize c1 ++ ' ' :: desc) := by
          simp [Todo.serialize]
        rw [hser]
        simp only [Todo.from_str, startsWithX, charAtIs, List.get?_cons_zero,
          List.get?_cons_succ, beq_self_eq_true, Bool.and_self, if_true,
          List.drop_succ_cons, List.drop_zero, hpm, Bool.false_eq_true, if_false,
          splitAtFirst_date, hrt1]
        cases hsp2 : splitAtFirst isWsp desc with
        | none => simp [Todo.new, hlead]
        | some pr =>
          simp only [firstTokNotDate, hsp2, Bool.not_eq_true'] at htok'
          cases hd : Date.from_str pr.1 with
          | ok d2 => rw [hd] at htok'; simp [PResult.isOk] at htok'
          | err m => simp [hd, Todo.new, hlead]
          | crash => simp [hd, Todo.new, hlead]
      | false =>
        have hser : Todo.serialize ⟨false, none, some c1, none, desc⟩ =
            Date.serialize c1 ++ ' ' :: desc := by
          simp [Todo.serialize]
        rw [hser]
        have hsx : startsWithX (Date.serialize c1 ++ ' ' :: desc) = false :=
          startsWithX_date_head c1 _
        simp only [Todo.from_str, hsx, Bool.false_eq_true, if_false, hpm,
          splitAtFirst_date, hrt1]
        cases hsp2 : splitAtFirst isWsp desc with
        | none => simp [Todo.new, hlead]
        | some pr =>
          simp only [firstTokNotDate, hsp2, Bool.not_eq_true'] at htok'
          cases hd : Date.from_str pr.1 with
          | ok d2 => rw [hd] at htok'; simp [PResult.isOk] at htok'
          | err m => simp [hd, Todo.new, hlead]
          | crash => simp [hd, Todo.new, hlead]
    | none =>
      obtain ⟨hpm, hsx⟩ := hnodate rfl
      cases done with
      | true =>
        have hser : Todo.serialize ⟨true, none, none, none, desc⟩ =
            'x' :: ' ' :: desc := by
          simp [Todo.serialize]
        rw [hser]
        simp only [Todo.from_str, startsWithX, charAtIs, List.get?_cons_zero,
          List.get?_cons_succ, beq_self_eq_true, Bool.and_self, if_true,
          List.drop_succ_cons, List.drop_zero, hpm, Bool.false_eq_true, if_false]
        cases hsp : splitAtFirst isWsp desc with
        | none => simp [Todo.new, hlead]
        | some pr =>
          simp only [firstTokNotDate, hsp, Bool.not_eq_true'] at htok'
          cases hd : Date.from_str pr.1 with
          | ok d2 => rw [hd] at htok'; simp [PResult.isOk] at htok'
          | err m => simp [hd, Todo.new, hlead]
          | crash => simp [hd, Todo.new, hlead]
      | false =>
        have hser : Todo.serialize ⟨false, none, none, none, desc⟩ = desc := by
          simp [Todo.serialize]
        rw [hser]
        simp only [Todo.from_str, hsx rfl, Bool.false_eq_true, if_false, hpm]
        cases hsp : splitAtFirst isWsp desc with
        | none => simp [Todo.new, hlead]
        | some pr =>
          simp only [firstTokNotDate, hsp, Bool.not_eq_true'] at htok'
          cases hd : Date.from_str pr.1 with
          | ok d2 => rw [hd] at htok'; simp [PResult.isOk] at htok'
          | err m => simp [hd, Todo.new, hlead]
          | crash => simp [hd, Todo.new, hlead]

/-- C1 witness. -/
theorem claim1_amended_witness :
    Todo.from_str (Todo.serialize ⟨true, none, some ⟨2024, 1, 5⟩, some ⟨2024, 2, 7⟩,
      cs "pay rent @home id:77"⟩) =
      .ok ⟨true, none, some ⟨2024, 1, 5⟩, some ⟨2024, 2, 7⟩, cs "pay rent @home id:77"⟩ :=
  claim1_amended_roundtrip ⟨true, none, some ⟨2024, 1, 5⟩, some ⟨2024, 2, 7⟩,
      cs "pay rent @home id:77"⟩
    rfl (fun d hd => by cases hd; exact ⟨by decide, by decide, by decide⟩)
    (fun d hd => by cases hd; exact ⟨by decide, by decide, by decide⟩)
    (fun _ => ⟨rfl, rfl⟩) (by decide) (fun h => by cases h) (fun h => by cases h)


/-!
## C2: escaping neutralizes all tags
-/

theorem takeWhile_append_all {p : Char → Bool} {R T : List Char}
    (h : ∀ x ∈ R, p x = true) : (R ++ T).takeWhile p = R ++ T.takeWhile p := by
  induction R with
  | nil => simp
  | cons c r ih =>
    have hc : p c = true := h c (by simp)
    simp only [List.cons_append, List.takeWhile_cons, hc, if_true]
    rw [ih (fun x hx => h x (by simp [hx]))]

theorem dropWhile_append_all {p : Char → Bool} {R T : List Char}
    (h : ∀ x ∈ R, p x = true) : (R ++ T).dropWhile p = T.dropWhile p := by
  induction R with
  | nil => simp
  | cons c r ih =>
    have hc : p c = true := h c (by simp)
    simp only [List.cons_append, List.dropWhile_cons, hc, if_true]
    exact ih (fun x hx => h x (by simp [hx]))

theorem takeWhile_eq_nil_of_head {p : Char → Bool} {T : List Char}
    (h : T = [] ∨ ∃ c r, T = c :: r ∧ p c = false) : T.takeWhile p = [] := by
  rcases h with rfl | ⟨c, r, rfl, hc⟩
  · rfl
  · simp [List.takeWhile_cons, hc]

theorem dropWhile_eq_self_of_head {p : Char → Bool} {T : List Char}
    (h : T = [] ∨ ∃ c r, T = c :: r ∧ p c = false) : T.dropWhile p = T := by
  rcases h with rfl | ⟨c, r, rfl, hc⟩
  · rfl
  · simp [List.dropWhile_cons, hc]

theorem dropWhile_head_not (p : Char → Bool) :
    ∀ l : List Char, l.dropWhile p = [] ∨ ∃ c r, l.dropWhile p = c :: r ∧ p c = false := by
  intro l
  induction l with
  | nil => exact Or.inl rfl
  | cons c r ih =>
    by_cases hc : p c = true
    · simpa [List.dropWhile_cons, hc] using ih
    · have hc' : p c = false := by simpa using hc
      exact Or.inr ⟨c, r, by simp [List.dropWhile_cons, hc'], hc'⟩

theorem mem_takeWhile_p {p : Char → Bool} :
    ∀ {l : List Char} {x : Char}, x ∈ l.takeWhile p → p x = true := by
  intro l
  induction l with
  | nil => intro x hx; simp at hx
  | cons c r ih =>
    intro x hx
    by_cases hc : p c = true
    · simp only [List.takeWhile_cons, hc, if_true, List.mem_cons] at hx
      rcases hx with rfl | hx
      · exact hc
      · exact ih hx
    · simp [List.takeWhile_cons, hc] at hx

theorem dropWhile_length_le (p : Char → Bool) (l : List Char) :
    (l.dropWhile p).length ≤ l.length :=
  (List.dropWhile_suffix p).length_le

/-- The fuelled walks do not depend on the fuel once it bounds the
length. -/
theorem escapeFuel_fuel : ∀ f1 : Nat, ∀ f2 : Nat, ∀ l : List Char,
    l.length ≤ f1 → l.length ≤ f2 → escapeFuel f1 l = escapeFuel f2 l := by
  intro f1
  induction f1 with
  | zero =>
    intro f2 l h1 _
    have : l = [] := List.eq_nil_of_length_eq_zero (by omega)
    subst this
    cases f2 <;> rfl
  | succ f1 ih =>
    intro f2 l h1 h2
    cases l with
    | nil => cases f2 <;> rfl
    | cons c rest =>
      cases f2 with
      | zero => simp at h2
      | succ f2 =>
        simp only [escapeFuel]
        by_cases hc : isWsp c = true
        · simp only [hc, if_true]
          rw [ih f2 rest (by simpa using h1) (by simpa using h2)]
        · have hc' : isWsp c = false := by simpa using hc
          simp only [hc', Bool.false_eq_true, if_false]
          have hlen : ((c :: rest).dropWhile notWsp).length ≤ rest.length := by
            have heq : (c :: rest).dropWhile notWsp = rest.dropWhile notWsp := by
              simp [List.dropWhile_cons, notWsp, hc']
            rw [heq]
            exact dropWhile_length_le _ _
          rw [ih f2 _ (le_trans hlen (by simpa using h1))
            (le_trans hlen (by simpa using h2))]

theorem findMetaFuel_fuel : ∀ f1 : Nat, ∀ f2 : Nat, ∀ l : List Char,
    l.length ≤ f1 → l.length ≤ f2 → findMetaFuel f1 l = findMetaFuel f2 l := by
  intro f1
  induction f1 with
  | zero =>
    intro f2 l h1 _
    have : l = [] := List.eq_nil_of_length_eq_zero (by omega)
    subst this
    cases f2 <;> rfl
  | succ f1 ih =>
    intro f2 l h1 h2
    cases l with
    | nil => cases f2 <;> rfl
    | cons c rest =>
      cases f2 with
      | zero => simp at h2
      | succ f2 =>
        simp only [findMetaFuel]
        by_cases hc : isWsp c = true
        · simp only [hc, if_true]
          rw [ih f2 rest (by simpa using h1) (by simpa using h2)]
        · have hc' : isWsp c = false := by simpa using hc
          simp only [hc', Bool.false_eq_true, if_false]
          have hlen : ((c :: rest).dropWhile notWsp).length ≤ rest.length := by
            have heq : (c :: rest).dropWhile notWsp = rest.dropWhile notWsp := by
              simp [List.dropWhile_cons, notWsp, hc']
            rw [heq]
            exact dropWhile_length_le _ _
          rw [ih f2 _ (le_trans hlen (by simpa using h1))
            (le_trans hlen (by simpa using h2))]

theorem escapeGo_nil : escapeGo [] = [] := rfl

theorem escapeGo_cons_wsp {c : Char} {rest : List Char} (h : isWsp c = true) :
    escapeGo (c :: rest) = c :: escapeGo rest := by
  simp [escapeGo, escapeFuel, h]

theorem escapeGo_cons_run {c : Char} {rest : List Char} (h : isWsp c = false) :
    escapeGo (c :: rest) =
      escRun ((c :: rest).takeWhile notWsp) ++ escapeGo ((c :: rest).dropWhile notWsp) := by
  have hlen : ((c :: rest).dropWhile notWsp).length ≤ rest.length := by
    have heq : (c :: rest).dropWhile notWsp = rest.dropWhile notWsp := by
      simp [List.dropWhile_cons, notWsp, h]
    rw [heq]
    exact dropWhile_length_le _ _
  simp only [escapeGo, List.length_cons, escapeFuel, h, Bool.false_eq_true, if_false]
  rw [escapeFuel_fuel rest.length ((c :: rest).dropWhile notWsp).length _ hlen le_rfl]

theorem findMetaGo_nil : findMetaGo [] = [] := rfl

theorem findMetaGo_cons_wsp {c : Char} {rest : List Char} (h : isWsp c = true) :
    findMetaGo (c :: rest) = findMetaGo rest := by
  simp [findMetaGo, findMetaFuel, h]

theorem findMetaGo_cons_run {c : Char} {rest : List Char} (h : isWsp c = false) :
    findMetaGo (c :: rest) =
      (match runMatch ((c :: rest).takeWhile notWsp) with
       | some he => [DescriptionPart.parse (((c :: rest).takeWhile notWsp).take he.2)]
       | none => []) ++ findMetaGo ((c :: rest).dropWhile notWsp) := by
  have hlen : ((c :: rest).dropWhile notWsp).length ≤ rest.length := by
    have heq : (c :: rest).dropWhile notWsp = rest.dropWhile notWsp := by
      simp [List.dropWhile_cons, notWsp, h]
    rw [heq]
    exact dropWhile_length_le _ _
  simp only [findMetaGo, List.length_cons, findMetaFuel, h, Bool.false_eq_true, if_false]
  rw [findMetaFuel_fuel rest.length ((c :: rest).dropWhile notWsp).length _ hlen le_rfl]

/-- `find_meta` on a non-whitespace run followed by whitespace (or the
end): the run contributes its tag match, independently of the rest. -/
theorem findMetaGo_run_append {R T : List Char} (hR : R ≠ [])
    (hall : ∀ x ∈ R, notWsp x = true)
    (hT : T = [] ∨ ∃ c r, T = c :: r ∧ isWsp c = true) :
    findMetaGo (R ++ T) =
      (match runMatch R with
       | some he => [DescriptionPart.parse (R.take he.2)]
       | none => []) ++ findMetaGo T := by
  obtain ⟨c, R0, rfl⟩ := List.exists_cons_of_ne_nil hR
  have hc : isWsp c = false := by
    have := hall c (by simp)
    simpa [notWsp] using this
  have hT' : T = [] ∨ ∃ c' r, T = c' :: r ∧ notWsp c' = false := by
    rcases hT with rfl | ⟨c', r, rfl, hw⟩
    · exact Or.inl rfl
    · exact Or.inr ⟨c', r, rfl, by simp [notWsp, hw]⟩
  have htake : (c :: R0 ++ T).takeWhile notWsp = c :: R0 := by
    rw [takeWhile_append_all hall, takeWhile_eq_nil_of_head hT', List.append_nil]
  have hdrop : (c :: R0 ++ T).dropWhile notWsp = T := by
    rw [dropWhile_append_all hall, dropWhile_eq_self_of_head hT']
  rw [List.cons_append, findMetaGo_cons_run hc, ← List.cons_append, htake, hdrop]

/-- Word characters are not tag delimiters. -/
theorem wordChar_facts {c : Char} (h : wordChar c = true) :
    c ≠ '@' ∧ c ≠ '+' ∧ c ≠ ':' ∧ c ≠ '\\' := by
  refine ⟨?_, ?_, ?_, ?_⟩ <;> · rintro rfl; simp [wordChar] at h

/-- The head alternation fails on every run produced by `escRun` from a
matching run: the inserted backslash is neither `@`, `+`, a word
character, nor the `:` the data head needs. -/
theorem headLen_escRun_insert {run : List Char} {h e : Nat}
    (hm : runMatch run = some (h, e)) :
    headLen (run.take (h - 1) ++ '\\' :: run.drop (h - 1)) = none := by
  have hh : headLen run = some h := by
    unfold runMatch at hm
    cases hl : headLen run with
    | none => rw [hl] at hm; exact absurd hm (by simp)
    | some h' =>
      rw [hl] at hm
      dsimp only at hm
      cases ht : tagEnd run h' with
      | none => rw [ht] at hm; exact absurd hm (by simp)
      | some e' =>
        rw [ht] at hm
        dsimp only at hm
        simp only [Option.some_inj, Prod.mk.injEq] at hm
        rw [← hm.1]
  cases run with
  | nil => simp [headLen] at hh
  | cons c rest =>
    by_cases hc : c = '@' ∨ c = '+'
    · have h1 : h = 1 := by
        simp only [headLen, hc, if_true, Option.some_inj] at hh
        omega
      subst h1
      simp only [Nat.sub_self, List.take_zero, List.drop_zero, List.nil_append]
      simp [headLen, wordChar]
    · simp only [headLen, hc, if_false] at hh
      by_cases hcond : ((c :: rest).takeWhile wordChar).length ≠ 0 ∧
          (c :: rest).get? ((c :: rest).takeWhile wordChar).length = some ':'
      · rw [if_pos hcond] at hh
        obtain ⟨hk0, hcol⟩ := hcond
        have hk : h = ((c :: rest).takeWhile wordChar).length + 1 := by
          simpa using hh.symm
        have htk : (c :: rest).take (h - 1) = (c :: rest).takeWhile wordChar := by
          rw [hk]
          simp only [Nat.add_sub_cancel]
          exact (List.prefix_iff_eq_take.1 (List.takeWhile_prefix wordChar)).symm
        rw [htk]
        have hKw : ∀ x ∈ (c :: rest).takeWhile wordChar, wordChar x = true :=
          fun x hx => mem_takeWhile_p hx
        obtain ⟨k0, K0, hKc⟩ : ∃ k0 K0, (c :: rest).takeWhile wordChar = k0 :: K0 := by
          cases hKe : (c :: rest).takeWhile wordChar with
          | nil => rw [hKe] at hk0; simp at hk0
          | cons k0 K0 => exact ⟨k0, K0, rfl⟩
        have hk0w : wordChar k0 = true := hKw k0 (by rw [hKc]; simp)
        have hk0f := wordChar_facts hk0w
        rw [hKc, List.cons_append]
        have hcne : ¬(k0 = '@' ∨ k0 = '+') := by
          rintro (rfl | rfl)
          · exact hk0f.1 rfl
          · exact hk0f.2.1 rfl
        simp only [headLen, hcne, if_false]
        have htw : (k0 :: (K0 ++ '\\' :: (c :: rest).drop (h - 1))).takeWhile wordChar =
            k0 :: K0 := by
          rw [← List.cons_append, takeWhile_append_all (by rw [← hKc]; exact hKw)]
          simp [List.takeWhile_cons, wordChar]
        rw [htw]
        have hget : (k0 :: (K0 ++ '\\' :: (c :: rest).drop (h - 1))).get?
            (k0 :: K0).length = some '\\' := by
          rw [← List.cons_append, List.get?_append_right le_rfl]
          simp
        rw [hget]
        simp
      · rw [if_neg hcond] at hh
        exact absurd hh (by simp)

/-- Core per-run fact: the rewritten run never matches again. -/
theorem runMatch_escRun (run : List Char) : runMatch (escRun run) = none := by
  cases hm : runMatch run with
  | none => simpa [escRun, hm] using hm
  | some he =>
    obtain ⟨h, e⟩ := he
    have hnone := headLen_escRun_insert hm
    have hesc : escRun run = run.take (h - 1) ++ '\\' :: run.drop (h - 1) := by
      simp [escRun, hm]
    rw [hesc]
    unfold runMatch
    rw [hnone]

theorem escRun_ne_nil {run : List Char} (h : run ≠ []) : escRun run ≠ [] := by
  cases hm : runMatch run with
  | none => simpa [escRun, hm] using h
  | some he => simp [escRun, hm]

theorem escRun_all_notWsp {run : List Char} (hall : ∀ x ∈ run, notWsp x = true) :
    ∀ x ∈ escRun run, notWsp x = true := by
  intro x hx
  cases hm : runMatch run with
  | none => exact hall x (by rwa [escRun, hm] at hx)
  | some he =>
    rw [escRun, hm] at hx
    simp only [List.mem_append, List.mem_cons] at hx
    rcases hx with hx | rfl | hx
    · exact hall x (List.mem_of_mem_take hx)
    · decide
    · exact hall x (List.mem_of_mem_drop hx)

/-- Escaping, then extracting: the extraction sequence is empty. -/
theorem findMeta_escapeGo : ∀ n : Nat, ∀ l : List Char, l.length ≤ n →
    findMetaGo (escapeGo l) = [] := by
  intro n
  induction n with
  | zero =>
    intro l hl
    have : l = [] := List.eq_nil_of_length_eq_zero (by omega)
    subst this
    rfl
  | succ n ih =>
    intro l hl
    cases l with
    | nil => rfl
    | cons c rest =>
      by_cases hc : isWsp c = true
      · rw [escapeGo_cons_wsp hc, findMetaGo_cons_wsp hc]
        exact ih rest (by simpa using hl)
      · have hc' : isWsp c = false := by simpa using hc
        rw [escapeGo_cons_run hc']
        have hRne : (c :: rest).takeWhile notWsp ≠ [] := by
          simp [List.takeWhile_cons, notWsp, hc']
        have hRall : ∀ x ∈ (c :: rest).takeWhile notWsp, notWsp x = true :=
          fun x hx => mem_takeWhile_p hx
        have hT : escapeGo ((c :: rest).dropWhile notWsp) = [] ∨
            ∃ c' r', escapeGo ((c :: rest).dropWhile notWsp) = c' :: r' ∧ isWsp c' = true := by
          rcases dropWhile_head_not notWsp (c :: rest) with hnil | ⟨c', r', hcons, hn⟩
          · rw [hnil]
            exact Or.inl rfl
          · have hw : isWsp c' = true := by simpa [notWsp] using hn
            rw [hcons, escapeGo_cons_wsp hw]
            exact Or.inr ⟨c', escapeGo r', rfl, hw⟩
        rw [findMetaGo_run_append (escRun_ne_nil hRne) (escRun_all_notWsp hRall) hT,
          runMatch_escRun]
        have hlen : ((c :: rest).dropWhile notWsp).length ≤ n := by
          have heq : (c :: rest).dropWhile notWsp = rest.dropWhile notWsp := by
            simp [List.dropWhile_cons, notWsp, hc']
          rw [heq]
          exact le_trans (dropWhile_length_le _ _) (by simpa using hl)
        rw [ih _ hlen]
        rfl

/-- C2: for every description string, extracting metadata from the
escaped description yields an empty tag sequence: no tag-pattern match
survives `escape_description`. -/
theorem claim2_escape_extraction_empty (done : Bool) (priority : Option Char)
    (created completed : Option Date) (desc : List Char) :
    Todo.find_meta ⟨done, priority, created, completed, Todo.escape_description desc⟩ = [] :=
  findMeta_escapeGo desc.length desc le_rfl

/-!
## C7: where the backslash is inserted

To compare `escape_description` against the spec sentence ("a backslash
inserted immediately after its head character"), we give a second,
position-based description of the rewrite: the list of matches as
absolute positions in the input, and a generic insert-at-positions
transformer.  `escapeSpecAfterHead` below follows the spec words;
`escapeSpecBeforeHeadEnd` is the amended position.
-/

/-- Insert a backslash before index `p`. -/
def insertAt (s : List Char) (p : Nat) : List Char := s.take p ++ '\\' :: s.drop p

/-- Insert a backslash before each index of `ps` (ascending indices of
the original string; right-to-left application keeps earlier indices
valid). -/
def insertAll (s : List Char) (ps : List Nat) : List Char :=
  ps.foldr (fun p acc => insertAt acc p) s

/-- All tag matches of the string, as (head start, head length, match
end) in absolute positions, walked per maximal run like `find_meta`. -/
def tagMatchesFuel : Nat → Nat → List Char → List (Nat × Nat × Nat)
  | _, _, [] => []
  | 0, _, _ :: _ => []
  | f + 1, off, c :: rest =>
    if isWsp c then tagMatchesFuel f (off + 1) rest
    else
      (match runMatch ((c :: rest).takeWhile notWsp) with
       | some he => [(off, he.1, off + he.2)]
       | none => []) ++
        tagMatchesFuel f (off + ((c :: rest).takeWhile notWsp).length)
          ((c :: rest).dropWhile notWsp)

def tagMatches (l : List Char) : List (Nat × Nat × Nat) := tagMatchesFuel l.length 0 l

/-- Modelled from the spec words of C7: every matching substring gets a
backslash immediately *after* its head character (after `@`, `+`, or the
`:` following the key), i.e. at absolute position head start + head
length. -/
def escapeSpecAfterHead (l : List Char) : List Char :=
  insertAll l ((tagMatches l).map (fun m => m.1 + m.2.1))

/-- The amended position: immediately *before* the final character of the
head (before `@`, `+`, or the `:`), i.e. head start + head length - 1,
matching `pos = head.end() - 1` in the source. -/
def escapeSpecBeforeHeadEnd (l : List Char) : List Char :=
  insertAll l ((tagMatches l).map (fun m => m.1 + m.2.1 - 1))

theorem headLen_pos {run : List Char} {h : Nat} (hh : headLen run = some h) : 1 ≤ h := by
  cases run with
  | nil => simp [headLen] at hh
  | cons c rest =>
    by_cases hc : c = '@' ∨ c = '+'
    · simp only [headLen, hc, if_true, Option.some_inj] at hh
      omega
    · simp only [headLen, hc, if_false] at hh
      by_cases hcond : ((c :: rest).takeWhile wordChar).length ≠ 0 ∧
          (c :: rest).get? ((c :: rest).takeWhile wordChar).length = some ':'
      · rw [if_pos hcond] at hh
        simp only [Option.some_inj] at hh
        omega
      · rw [if_neg hcond] at hh
        exact absurd hh (by simp)

theorem runMatch_bounds {run : List Char} {h e : Nat} (hm : runMatch run = some (h, e)) :
    1 ≤ h ∧ h < e ∧ e ≤ run.length := by
  unfold runMatch at hm
  cases hl : headLen run with
  | none => rw [hl] at hm; exact absurd hm (by simp)
  | some h' =>
    rw [hl] at hm
    dsimp only at hm
    cases ht : tagEnd run h' with
    | none => rw [ht] at hm; exact absurd hm (by simp)
    | some e' =>
      rw [ht] at hm
      dsimp only at hm
      simp only [Option.some_inj, Prod.mk.injEq] at hm
      obtain ⟨rfl, rfl⟩ := hm
      have hfind := ht
      unfold tagEnd at hfind
      have hpred := List.find?_some hfind
      have hmem := List.mem_of_find?_eq_some hfind
      simp only [List.mem_reverse, List.mem_range] at hmem
      simp only [Bool.and_eq_true, decide_eq_true_eq] at hpred
      exact ⟨headLen_pos hl, hpred.1, by omega⟩

theorem tagMatchesFuel_h_pos : ∀ f off : Nat, ∀ l : List Char,
    ∀ m ∈ tagMatchesFuel f off l, 1 ≤ m.2.1 := by
  intro f
  induction f with
  | zero =>
    intro off l m hm
    cases l <;> simp [tagMatchesFuel] at hm
  | succ f ih =>
    intro off l m hm
    cases l with
    | nil => simp [tagMatchesFuel] at hm
    | cons c rest =>
      by_cases hc : isWsp c = true
      · rw [show tagMatchesFuel (f + 1) off (c :: rest) = tagMatchesFuel f (off + 1) rest by
          simp [tagMatchesFuel, hc]] at hm
        exact ih _ _ m hm
      · have hc' : isWsp c = false := by simpa using hc
        simp only [tagMatchesFuel, hc', Bool.false_eq_true, if_false,
          List.mem_append] at hm
        rcases hm with hm | hm
        · cases hrm : runMatch ((c :: rest).takeWhile notWsp) with
          | none => rw [hrm] at hm; simp at hm
          | some he =>
            rw [hrm] at hm
            obtain ⟨h, e⟩ := he
            simp only [List.mem_singleton] at hm
            subst hm
            exact (runMatch_bounds hrm).1
        · exact ih _ _ m hm

theorem tagMatchesFuel_shift : ∀ f : Nat, ∀ l : List Char, ∀ a off : Nat,
    tagMatchesFuel f (a + off) l =
      (tagMatchesFuel f off l).map (fun m => (m.1 + a, m.2.1, m.2.2 + a)) := by
  intro f
  induction f with
  | zero => intro l a off; cases l <;> simp [tagMatchesFuel]
  | succ f ih =>
    intro l a off
    cases l with
    | nil => simp [tagMatchesFuel]
    | cons c rest =>
      by_cases hc : isWsp c = true
      · simp only [tagMatchesFuel, hc, if_true]
        rw [show a + off + 1 = a + (off + 1) by omega, ih]
      · have hc' : isWsp c = false := by simpa using hc
        simp only [tagMatchesFuel, hc', Bool.false_eq_true, if_false, List.map_append]
        congr 1
        · cases hrm : runMatch ((c :: rest).takeWhile notWsp) with
          | none => simp
          | some he =>
            have h1 : a + off = off + a := by omega
            have h2 : a + off + he.2 = off + he.2 + a := by omega
            simp [h1, h2] <;> omega
        · rw [show a + off + ((c :: rest).takeWhile notWsp).length =
              a + (off + ((c :: rest).takeWhile notWsp).length) by omega, ih]

theorem insertAll_nil (s : List Char) : insertAll s [] = s := rfl

theorem insertAll_cons (s : List Char) (p : Nat) (ps : List Nat) :
    insertAll s (p :: ps) = insertAt (insertAll s ps) p := rfl

theorem insertAll_append (s : List Char) (ps1 ps2 : List Nat) :
    insertAll s (ps1 ++ ps2) = insertAll (insertAll s ps2) ps1 :=
  List.foldr_append _ _ _ _

theorem insertAll_shift (A B : List Char) : ∀ ps : List Nat,
    insertAll (A ++ B) (ps.map (fun p => p + A.length)) = A ++ insertAll B ps := by
  intro ps
  induction ps with
  | nil => rfl
  | cons p ps ih =>
    simp only [List.map_cons, insertAll_cons, ih]
    unfold insertAt
    rw [Nat.add_comm p A.length, List.take_append, List.drop_append, List.append_assoc]

theorem insertAll_cons_shift (c : Char) (B : List Char) (ps : List Nat) :
    insertAll (c :: B) (ps.map (fun p => p + 1)) = c :: insertAll B ps := by
  have := insertAll_shift [c] B ps
  simpa using this

/-- `escape_description` as position-based insertion: a backslash goes in
immediately before the last character of each match's head. -/
theorem escapeGo_insertAll : ∀ n : Nat, ∀ l : List Char, l.length ≤ n →
    escapeGo l = insertAll l ((tagMatchesFuel n 0 l).map (fun m => m.1 + m.2.1 - 1)) := by
  intro n
  induction n with
  | zero =>
    intro l hl
    have : l = [] := List.eq_nil_of_length_eq_zero (by omega)
    subst this
    rfl
  | succ n ih =>
    intro l hl
    cases l with
    | nil => rfl
    | cons c rest =>
      by_cases hc : isWsp c = true
      · rw [escapeGo_cons_wsp hc]
        have hstep : tagMatchesFuel (n + 1) 0 (c :: rest) = tagMatchesFuel n 1 rest := by
          simp [tagMatchesFuel, hc]
        have hshift : tagMatchesFuel n 1 rest =
            (tagMatchesFuel n 0 rest).map (fun m => (m.1 + 1, m.2.1, m.2.2 + 1)) := by
          simpa using tagMatchesFuel_shift n rest 1 0
        rw [hstep, hshift, List.map_map]
        have hmapeq : (tagMatchesFuel n 0 rest).map
            ((fun m : Nat × Nat × Nat => m.1 + m.2.1 - 1) ∘
              (fun m : Nat × Nat × Nat => (m.1 + 1, m.2.1, m.2.2 + 1))) =
            ((tagMatchesFuel n 0 rest).map (fun m => m.1 + m.2.1 - 1)).map
              (fun p => p + 1) := by
          rw [List.map_map]
          apply List.map_congr_left
          intro m hm
          have h1 := tagMatchesFuel_h_pos n 0 rest m hm
          simp only [Function.comp_apply]
          omega
        rw [hmapeq, insertAll_cons_shift, ih rest (by simpa using hl)]
      · have hc' : isWsp c = false := by simpa using hc
        rw [escapeGo_cons_run hc']
        set R := (c :: rest).takeWhile notWsp with hR
        set T := (c :: rest).dropWhile notWsp with hT2
        have hsplit : c :: rest = R ++ T :=
          (List.takeWhile_append_dropWhile notWsp (c :: rest)).symm
        have hTlen : T.length ≤ n := by
          have heq : T = rest.dropWhile notWsp := by
            rw [hT2]
            simp [List.dropWhile_cons, notWsp, hc']
          rw [heq]
          exact le_trans (dropWhile_length_le _ _) (by simpa using hl)
        have hstep : tagMatchesFuel (n + 1) 0 (c :: rest) =
            (match runMatch R with
             | some he => [(0, he.1, 0 + he.2)]
             | none => []) ++ tagMatchesFuel n (0 + R.length) T := by
          rw [hR, hT2]
          simp only [tagMatchesFuel, hc', Bool.false_eq_true, if_false]
        have hshift : tagMatchesFuel n (0 + R.length) T =
            (tagMatchesFuel n 0 T).map
              (fun m => (m.1 + R.length, m.2.1, m.2.2 + R.length)) := by
          have := tagMatchesFuel_shift n T R.length 0
          simpa [Nat.add_comm] using this
        rw [hstep, hshift, List.map_append, List.map_map]
        have hmapeq : (tagMatchesFuel n 0 T).map
            ((fun m : Nat × Nat × Nat => m.1 + m.2.1 - 1) ∘
              (fun m : Nat × Nat × Nat =>
                (m.1 + R.length, m.2.1, m.2.2 + R.length))) =
            ((tagMatchesFuel n 0 T).map (fun m => m.1 + m.2.1 - 1)).map
              (fun p => p + R.length) := by
          rw [List.map_map]
          apply List.map_congr_left
          intro m hm
          have h1 := tagMatchesFuel_h_pos n 0 _ m hm
          simp only [Function.comp_apply]
          omega
        rw [hmapeq, insertAll_append]
        have hinner : insertAll (c :: rest)
              (((tagMatchesFuel n 0 T).map (fun m => m.1 + m.2.1 - 1)).map
                (fun p => p + R.length)) =
            R ++ insertAll T ((tagMatchesFuel n 0 T).map (fun m => m.1 + m.2.1 - 1)) := by
          conv_lhs => rw [hsplit]
          exact insertAll_shift _ _ _
        rw [hinner, ← ih _ hTlen]
        cases hrm : runMatch R with
        | none =>
          rw [show escRun R = R from by simp [escRun, hrm]]
          rfl
        | some he =>
          obtain ⟨h, e⟩ := he
          obtain ⟨hh1, hhe, hel⟩ := runMatch_bounds hrm
          rw [show escRun R = R.take (h - 1) ++ '\\' :: R.drop (h - 1) from by
            simp [escRun, hrm]]
          simp only [List.map_cons, List.map_nil, insertAll_cons, insertAll_nil]
          unfold insertAt
          have hle : h - 1 ≤ R.length := by omega
          rw [show (0 : Nat) + h - 1 = h - 1 from by omega,
            List.take_append_of_le_length hle, List.drop_append_of_le_length hle,
            List.append_assoc, List.cons_append]

/-- C7 counterexample: on the description `a:b` (one data-tag match with
head `a:`), the code inserts the backslash *before* the colon, producing
`a\:b`, not after it (`a:\b`) as the claim states. -/
theorem claim7_counterexample :
    Todo.escape_description (cs "a:b") ≠ escapeSpecAfterHead (cs "a:b") ∧
    Todo.escape_description (cs "a:b") = cs "a\\:b" ∧
    escapeSpecAfterHead (cs "a:b") = cs "a:\\b" := by
  decide

/-- C7 (amended): escaping produces a copy of the text in which every
substring matching the tag pattern has a backslash inserted immediately
*before* the final character of its head (before the `@`, the `+`, or the
`:` that follows the key), leaving all other characters unchanged:
position-based insertion at head start + head length - 1 for every
match. -/
theorem claim7_amended_backslash_position (desc : List Char) :
    Todo.escape_description desc = escapeSpecBeforeHeadEnd desc :=
  escapeGo_insertAll desc.length desc le_rfl


/-!
## C4 and C5: the reconciler
-/

/-- The map left over after the retain pass contains exactly the incoming
entries whose key matches no local record's id. -/
theorem updateLocals_rem : ∀ existing : List Todo, ∀ m : List (Nat × Todo),
    (updateLocals existing m).2.1 =
      m.filter (fun kv => !(existing.any (fun t => get_id t == some kv.1))) := by
  intro existing
  induction existing with
  | nil =>
    intro m
    simp [updateLocals]
  | cons t rest ih =>
    intro m
    cases hid : get_id t with
    | none =>
      simp only [updateLocals, hid]
      rw [ih m]
      apply List.filter_congr
      intro kv _
      simp [hid]
    | some id =>
      cases hlk : lookupKey id m with
      | some td =>
        have hbody : (updateLocals (t :: rest) m).2.1 =
            (updateLocals rest (eraseKey id m)).2.1 := by
          simp only [updateLocals, hid, hlk]
          by_cases heq : t = td <;> simp [heq]
        rw [hbody, ih, eraseKey, List.filter_filter]
        apply List.filter_congr
        intro kv _
        by_cases hkv : kv.1 = id
        · simp [hkv, hid]
        · have : (some id == some kv.1) = false := by
            simp only [beq_eq_false_iff_ne, ne_eq, Option.some_inj]
            omega
          simp [hid, this, hkv]
      | none =>
        have hbody : (updateLocals (t :: rest) m).2.1 = (updateLocals rest m).2.1 := by
          simp only [updateLocals, hid, hlk]
        rw [hbody, ih]
        apply List.filter_congr
        intro kv hkv
        have hfind : m.find? (fun kv => kv.1 == id) = none := by
          have h0 := hlk
          unfold lookupKey at h0
          exact Option.map_eq_none'.1 h0
        have hno : ¬(kv.1 == id) = true := by
          intro habs
          exact (List.find?_eq_none.1 hfind kv hkv) habs
        have : (some id == some kv.1) = false := by
          simp only [beq_eq_false_iff_ne, ne_eq, Option.some_inj]
          intro habs
          exact hno (by simp [habs])
        simp [hid, this]

/-- C4: after the retain pass, the records appended to the local list are
exactly the incoming entries whose key matched no local id — all of them
under the add policy, and exactly the ones not marked done under any
other policy. -/
theorem claim4_done_policy_append (existing : List Todo) (todos : List (Nat × Todo)) :
    (update_todos existing todos true).1 =
      (updateLocals existing todos).1 ++
        (todos.filter (fun kv => !(existing.any (fun t => get_id t == some kv.1)))).map
          Prod.snd ∧
    (update_todos existing todos false).1 =
      (updateLocals existing todos).1 ++
        ((todos.filter (fun kv => !(existing.any (fun t => get_id t == some kv.1)))).map
          Prod.snd).filter (fun t => !t.done) := by
  constructor <;>
    simp [update_todos, updateLocals_rem]

/-- A local record without a parsable id is kept by the retain pass. -/
theorem updateLocals_keeps_foreign : ∀ existing : List Todo, ∀ m : List (Nat × Todo),
    ∀ t : Todo, t ∈ existing → get_id t = none → t ∈ (updateLocals existing m).1 := by
  intro existing
  induction existing with
  | nil => intro m t ht; simp at ht
  | cons u rest ih =>
    intro m t ht hid
    rcases List.mem_cons.1 ht with rfl | ht'
    · simp [updateLocals, hid]
    · cases hu : get_id u with
      | none =>
        simp only [updateLocals, hu, List.mem_cons]
        exact Or.inr (ih m t ht' hid)
      | some id =>
        cases hlk : lookupKey id m with
        | some td =>
          simp only [updateLocals, hu, hlk]
          by_cases heq : u = td
          · simp only [heq, if_true, List.mem_cons]
            exact Or.inr (ih _ t ht' hid)
          · simp only [heq, if_false, List.mem_cons]
            exact Or.inr (ih _ t ht' hid)
        | none =>
          simp only [updateLocals, hu, hlk]
          exact ih m t ht' hid

/-- C5: a local record whose description carries no parsable `id` data
tag is present unchanged in the reconciler's output list, for every
incoming mapping and policy. -/
theorem claim5_foreign_record_preserved (existing : List Todo) (todos : List (Nat × Todo))
    (add_done : Bool) (t : Todo) (ht : t ∈ existing) (hid : get_id t = none) :
    t ∈ (update_todos existing todos add_done).1 := by
  unfold update_todos
  exact List.mem_append_left _ (updateLocals_keeps_foreign existing todos t ht hid)

/-- C5 witness. -/
theorem claim5_witness :
    (⟨false, none, none, none, cs "buy milk @home"⟩ : Todo) ∈
      (update_todos [⟨false, none, none, none, cs "buy milk @home"⟩]
        [(1, ⟨true, none, none, none, cs "done item id:1"⟩)] false).1 :=
  claim5_foreign_record_preserved _ _ false _ (by decide) (by decide)

end GTSync
